import Mathlib

/-!
Shallow embedding of the termi-talk session core (`src/main.rs`, `src/inference.rs`).

Rust `String` values are modelled as `List Char`: every operation the program
performs on its strings acts on `char` boundaries (`char_indices`, `chars()`,
`insert` at a boundary returned by `char_indices`, `split_whitespace`), so the
byte-level Rust code and the scalar-level model coincide.  Rust `String::len`
(a byte count) is modelled by `byteLen`, the sum of the UTF-8 sizes of the
characters; `chars().count()` is modelled by `List.length`.
-/

namespace TermiTalk

/-- Rust `String::len`: the UTF-8 byte length of the text. -/
def byteLen (l : List Char) : Nat := (l.map Char.utf8Size).sum

/-- The apostrophe character (U+0027), spelled via its code point. -/
def charApos : Char := Char.ofNat 39

/-- The constant `SYSTEM_PROMPT` from `src/inference.rs` (the raw string starts with a
newline; the apostrophe of the contraction is assembled from `charApos`). -/
def SYSTEM_PROMPT : List Char :=
  ("\nYou are *The Quirky Scientist*—a warm, highly knowledgeable AI with a playful edge and a passion for science. You"
    ++ String.singleton charApos
    ++ "re a bit nerdy, love quirky facts, and explain complex ideas with fun analogies. Your tone is friendly, upbeat, and slightly whimsical, making even challenging topics feel accessible. Answer should be short, with a minimal number of words and witty.").data

/-- One entry of the `context` vector: the `IndexMap` with keys `"role"` and
`"content"`, both holding `Either::Left` strings. -/
structure Msg where
  role : List Char
  content : List Char
deriving DecidableEq, Repr

/-- The enum `InputMode` from `src/main.rs`. -/
inductive InputMode where
  | Normal
  | Editing
  | Generating
deriving DecidableEq, Repr

/-- The enum `Who` from `src/main.rs`. -/
inductive Who where
  | Me
  | Assistant
  | Empty
deriving DecidableEq, Repr

/-- The `Display` implementation for `Who`. -/
def Who.display : Who → List Char
  | .Me => "Me".data
  | .Assistant => "QS".data
  | .Empty => "  ".data

/-- The `App` struct from `src/main.rs`.  The terminal-only fields
(`messages_state`, the model handle) carry no session state and are omitted. -/
structure App where
  input : List Char
  character_index : Nat
  input_mode : InputMode
  messages : List (Who × List Char)
  context : List Msg
  context_len : Nat
deriving DecidableEq, Repr

/-- Model of `App::new`: the state at startup. -/
def App.new : App where
  input := []
  character_index := 0
  input_mode := InputMode.Editing
  messages := []
  context := [⟨"system".data, SYSTEM_PROMPT⟩]
  context_len := byteLen SYSTEM_PROMPT

/-- Model of `App::clamp_cursor`: `new_cursor_pos.clamp(0, self.input.chars().count())`;
on `usize` a clamp below by 0 is the identity, so this is `min`. -/
def App.clamp_cursor (a : App) (new_cursor_pos : Nat) : Nat :=
  min new_cursor_pos a.input.length

/-- Model of `App::move_cursor_left` (`saturating_sub` is truncated subtraction on `Nat`). -/
def App.move_cursor_left (a : App) : App :=
  { a with character_index := a.clamp_cursor (a.character_index - 1) }

/-- Model of `App::move_cursor_right`. -/
def App.move_cursor_right (a : App) : App :=
  { a with character_index := a.clamp_cursor (a.character_index + 1) }

/-- Model of `App::enter_char`: insert at the byte offset of character number
`character_index` (`byte_index`), i.e. at scalar position `character_index`
(at the end when the cursor is past the last character — `unwrap_or(len)`),
then `move_cursor_right` against the grown buffer. -/
def App.enter_char (a : App) (new_char : Char) : App :=
  App.move_cursor_right
    { a with input := a.input.take a.character_index ++ [new_char]
        ++ a.input.drop a.character_index }

/-- Model of `App::delete_char`: keep the first `character_index - 1` characters and
the characters from `character_index` on, then `move_cursor_left`. -/
def App.delete_char (a : App) : App :=
  if a.character_index ≠ 0 then
    App.move_cursor_left
      { a with input := a.input.take (a.character_index - 1)
          ++ a.input.drop a.character_index }
  else a

/-- Model of `App::reset_cursor`. -/
def App.reset_cursor (a : App) : App :=
  { a with character_index := 0 }

/-- Rust `char::is_alphanumeric`.  Lean's `Char.isAlphanum` is its ASCII
restriction; every alphanumeric character this development evaluates on is
ASCII, where the two predicates agree. -/
def is_alphanumeric (c : Char) : Bool := c.isAlphanum

/-- The possible outcomes of the engine interaction in `submit_message`:
`Done` is `ResponseOk::Done` carrying `choices[0].message.content`;
`OtherOk` is any other `ResponseOk` variant; the remaining constructors are
the three `unwrap`-ed failure points (`blocking_send` error, reply channel
closed, `as_result` error). -/
inductive EngineReply where
  | Done (content : Option (List Char))
  | OtherOk
  | SendFailure
  | ChannelClosed
  | ErrResult
deriving DecidableEq, Repr

/-- The `while self.context_len > 1000` pruning loop, acting on the tail of
the context after its first element `s`.  Each iteration performs
`remove(1)` twice and subtracts the removed contents' byte lengths.
`none` models a panic: `remove(1)` on fewer than two elements is out of
bounds, and a `usize` subtraction below zero overflows (debug-build panic). -/
def prune_tail (s : Msg) : List Msg → Nat → Option (List Msg × Nat)
  | [], len => if len ≤ 1000 then some ([s], len) else none
  | [q], len => if len ≤ 1000 then some ([s, q], len) else none
  | q :: ans :: rest, len =>
    if len ≤ 1000 then some (s :: q :: ans :: rest, len)
    else if byteLen q.content + byteLen ans.content ≤ len then
      prune_tail s rest (len - (byteLen q.content + byteLen ans.content))
    else none

/-- The pruning loop at the end of `submit_message`, over the whole context.
On an empty context a first iteration would already panic in `remove(1)`. -/
def enforce_budget (ctx : List Msg) (len : Nat) : Option (List Msg × Nat) :=
  match ctx with
  | [] => if len ≤ 1000 then some ([], len) else none
  | s :: rest => prune_tail s rest len

/-- The tail of `submit_message` after the engine interaction: run the
pruning loop, then `self.input.clear()` and `self.reset_cursor()`. -/
def App.prune_and_clear (a : App) : Option App :=
  match enforce_budget a.context a.context_len with
  | none => none
  | some (ctx, len) =>
    some { a with context := ctx, context_len := len,
                  input := [], character_index := 0 }

/-- Model of `App::submit_message`, with the engine's behaviour as a parameter.
The transcript push and the user-context push happen before the engine is
consulted; a `Done` reply with present content appends the literal text to
the transcript and the alphanumeric-filtered text to the context; any other
`ResponseOk` variant falls through the `if let` without appending; the three
`unwrap` failure points and an absent content (`content.as_ref().unwrap()`)
panic, modelled as `none`. -/
def App.submit_message (a : App) (r : EngineReply) : Option App :=
  let a1 : App :=
    { a with
      messages := a.messages ++ [(Who.Me, a.input)],
      context := a.context ++ [⟨"user".data, a.input⟩],
      context_len := a.context_len + byteLen a.input }
  match r with
  | .SendFailure => none
  | .ChannelClosed => none
  | .ErrResult => none
  | .Done none => none
  | .Done (some content) =>
    let sanitized := content.filter is_alphanumeric
    App.prune_and_clear
      { a1 with
        messages := a1.messages ++ [(Who.Assistant, content)],
        context := a1.context ++ [⟨"assistant".data, sanitized⟩],
        context_len := a1.context_len + byteLen sanitized }
  | .OtherOk => App.prune_and_clear a1

/-- One iteration of the event loop in `App::run`, as a step relation.
`R` restricts which engine replies the environment may produce; the
plain reachability of the program uses `R := fun _ => True`.
The constructors mirror the `match` in `run`: mode switches, the editor
keys (which require `Editing` mode and a key press), and the `Generating`
branch, which runs `submit_message` and then re-enters `Editing`. -/
inductive Step (R : EngineReply → Prop) : App → App → Prop where
  | press_e (a : App) : a.input_mode = InputMode.Normal →
      Step R a { a with input_mode := InputMode.Editing }
  | press_enter (a : App) : a.input_mode = InputMode.Editing →
      Step R a { a with input_mode := InputMode.Generating }
  | press_char (a : App) (c : Char) : a.input_mode = InputMode.Editing →
      Step R a (a.enter_char c)
  | press_backspace (a : App) : a.input_mode = InputMode.Editing →
      Step R a a.delete_char
  | press_left (a : App) : a.input_mode = InputMode.Editing →
      Step R a a.move_cursor_left
  | press_right (a : App) : a.input_mode = InputMode.Editing →
      Step R a a.move_cursor_right
  | press_esc (a : App) : a.input_mode = InputMode.Editing →
      Step R a { a with input_mode := InputMode.Normal }
  | generate (a a' : App) (r : EngineReply) : a.input_mode = InputMode.Generating →
      R r → a.submit_message r = some a' →
      Step R a { a' with input_mode := InputMode.Editing }

/-- States reachable from startup under an arbitrary engine. -/
def Reachable (a : App) : Prop :=
  Relation.ReflTransGen (Step fun _ => True) App.new a

/-- The engine replies assumed by the spec's request cycle: every reply is a
completed `Done` result with present content. -/
def DoneReply (r : EngineReply) : Prop :=
  ∃ s, r = EngineReply.Done (some s)

/-- States reachable from startup when the engine only ever produces
completed `Done` replies with content. -/
def DoneReachable (a : App) : Prop :=
  Relation.ReflTransGen (Step DoneReply) App.new a

/-- Byte-length sum of all stored message contents of a context. -/
def ctxByteSum (ctx : List Msg) : Nat :=
  (ctx.map fun m => byteLen m.content).sum

/-- Character-count sum of all stored message contents of a context (what the
spec asserts `running_length` to be). -/
def ctxCharSum (ctx : List Msg) : Nat :=
  (ctx.map fun m => m.content.length).sum

/-- A context tail consisting of complete (question, answer) pairs. -/
inductive Paired : List Msg → Prop where
  | nil : Paired []
  | cons (q ans : Msg) (rest : List Msg) :
      Paired rest → Paired (q :: ans :: rest)

/-- Accumulator-style splitter behind `split_whitespace`. -/
def splitWsAux : List Char → List Char → List (List Char)
  | [], acc => if acc = [] then [] else [acc.reverse]
  | c :: cs, acc =>
    if c.isWhitespace then
      if acc = [] then splitWsAux cs []
      else acc.reverse :: splitWsAux cs []
    else splitWsAux cs (c :: acc)

/-- Rust `str::split_whitespace`: the maximal whitespace-free nonempty runs. -/
def split_whitespace (l : List Char) : List (List Char) :=
  splitWsAux l []

/-- Rust `str::trim`: strip whitespace from both ends (here: from the right,
then from the left — the two orders agree). -/
def trim (l : List Char) : List Char :=
  ((l.reverse.dropWhile Char.isWhitespace).reverse).dropWhile Char.isWhitespace

/-- The body of the `for word in words` loop of `wrap_text`: state is
`(lines, current_line)`; when `current_line.len() + word.len() + 12` exceeds
`max_width` the trimmed current line is flushed first; the word and a
trailing space are then appended to the current line. -/
def wrapStep (max_width : Nat) (st : List (List Char) × List Char)
    (word : List Char) : List (List Char) × List Char :=
  if byteLen st.2 + byteLen word + 12 > max_width then
    (st.1 ++ [trim st.2], word ++ [' '])
  else
    (st.1, st.2 ++ word ++ [' '])

/-- Model of `wrap_text` from `src/inference.rs`. -/
def wrap_text (text : List Char) (max_width : Nat) : List (List Char) :=
  let st := (split_whitespace text).foldl (wrapStep max_width) ([], [])
  if st.2 ≠ [] then st.1 ++ [trim st.2] else st.1

/-- The byte length of the longest whitespace-delimited word of a text. -/
def maxWordLen (text : List Char) : Nat :=
  ((split_whitespace text).map byteLen).foldr max 0

/-- Shape of the current line during wrapping: empty, or some text followed
by the trailing space, with the text within the wrapping bound. -/
def CurOK (max_width B : Nat) (cur : List Char) : Prop :=
  cur = [] ∨ ∃ t, cur = t ++ [' '] ∧ byteLen t ≤ max (max_width - 12) B

/-- The invariant maintained by every reachable state: the cursor stays
within the buffer, `context_len` is the byte-length sum of the stored
contents, and the context starts with the system message, the only message
carrying the `system` role. -/
def Inv (a : App) : Prop :=
  a.character_index ≤ a.input.length ∧
  a.context_len = ctxByteSum a.context ∧
  ∃ rest, a.context = ⟨"system".data, SYSTEM_PROMPT⟩ :: rest ∧
    ∀ m ∈ rest, m.role ≠ "system".data

/-- The stronger context invariant available when the engine only produces
completed `Done` replies: the tail behind the system message consists of
complete exchanges. -/
def DInv (a : App) : Prop :=
  a.context_len = ctxByteSum a.context ∧
  ∃ rest, a.context = ⟨"system".data, SYSTEM_PROMPT⟩ :: rest ∧ Paired rest

/-- The state produced by typing the characters of `l` from startup: the
buffer holds `l` and the cursor sits at its end. -/
def typedState (l : List Char) : App :=
  { App.new with input := l, character_index := l.length }

/-- A typed state after the Enter key: same buffer, `Generating` mode. -/
def generatingState (l : List Char) : App :=
  { typedState l with input_mode := InputMode.Generating }

end TermiTalk

namespace TermiTalk

set_option maxRecDepth 400000

theorem byteLen_append (l m : List Char) :
    byteLen (l ++ m) = byteLen l + byteLen m := by
  simp [byteLen]

theorem byteLen_reverse (l : List Char) : byteLen l.reverse = byteLen l := by
  simp [byteLen, List.sum_reverse]

theorem byteLen_dropWhile_le (p : Char → Bool) (l : List Char) :
    byteLen (l.dropWhile p) ≤ byteLen l := by
  induction l with
  | nil => simp
  | cons c cs ih =>
    rw [List.dropWhile_cons]
    split
    · calc byteLen (cs.dropWhile p) ≤ byteLen cs := ih
        _ ≤ byteLen (c :: cs) := by simp [byteLen]
    · exact le_refl _

theorem byteLen_trim_le (l : List Char) : byteLen (trim l) ≤ byteLen l := by
  unfold trim
  calc byteLen (((l.reverse.dropWhile Char.isWhitespace).reverse).dropWhile
          Char.isWhitespace)
      ≤ byteLen (l.reverse.dropWhile Char.isWhitespace).reverse :=
        byteLen_dropWhile_le _ _
    _ = byteLen (l.reverse.dropWhile Char.isWhitespace) := byteLen_reverse _
    _ ≤ byteLen l.reverse := byteLen_dropWhile_le _ _
    _ = byteLen l := byteLen_reverse _

theorem trim_append_space (t : List Char) : trim (t ++ [' ']) = trim t := by
  unfold trim
  rw [List.reverse_append]
  have hsp : Char.isWhitespace ' ' = true := by decide
  simp [hsp]

theorem mem_le_foldr_max (x : Nat) (l : List Nat) (h : x ∈ l) :
    x ≤ l.foldr max 0 := by
  induction l with
  | nil => cases h
  | cons y ys ih =>
    rcases List.mem_cons.mp h with rfl | h'
    · exact le_max_left _ _
    · exact le_trans (ih h') (le_max_right _ _)

theorem ctxByteSum_append (l m : List Msg) :
    ctxByteSum (l ++ m) = ctxByteSum l + ctxByteSum m := by
  simp [ctxByteSum]

theorem ctxByteSum_cons (x : Msg) (l : List Msg) :
    ctxByteSum (x :: l) = byteLen x.content + ctxByteSum l := by
  simp [ctxByteSum]

theorem byteLen_SYSTEM_PROMPT : byteLen SYSTEM_PROMPT = 366 := by decide

theorem prune_tail_le_budget (s : Msg) :
    ∀ (rest : List Msg) (len : Nat) (ctx' : List Msg) (len' : Nat),
      prune_tail s rest len = some (ctx', len') → len' ≤ 1000
  | [], len, ctx', len', h => by
    simp only [prune_tail] at h
    split at h
    · obtain ⟨-, rfl⟩ := Prod.mk.injEq .. ▸ Option.some.inj h; assumption
    · exact absurd h (by simp)
  | [q], len, ctx', len', h => by
    simp only [prune_tail] at h
    split at h
    · obtain ⟨-, rfl⟩ := Prod.mk.injEq .. ▸ Option.some.inj h; assumption
    · exact absurd h (by simp)
  | q :: ans :: rest, len, ctx', len', h => by
    simp only [prune_tail] at h
    split at h
    · obtain ⟨-, rfl⟩ := Prod.mk.injEq .. ▸ Option.some.inj h; assumption
    · split at h
      · exact prune_tail_le_budget s rest _ _ _ h
      · exact absurd h (by simp)

theorem prune_tail_shape_sum (s : Msg) :
    ∀ (rest : List Msg) (len : Nat) (ctx' : List Msg) (len' : Nat),
      len = byteLen s.content + ctxByteSum rest →
      prune_tail s rest len = some (ctx', len') →
      ∃ rest', ctx' = s :: rest' ∧ len' = byteLen s.content + ctxByteSum rest' ∧
        rest' ⊆ rest
  | [], len, ctx', len', hsum, h => by
    simp only [prune_tail] at h
    split at h
    · obtain ⟨rfl, rfl⟩ := Prod.mk.injEq .. ▸ Option.some.inj h
      exact ⟨[], rfl, hsum, by simp⟩
    · exact absurd h (by simp)
  | [q], len, ctx', len', hsum, h => by
    simp only [prune_tail] at h
    split at h
    · obtain ⟨rfl, rfl⟩ := Prod.mk.injEq .. ▸ Option.some.inj h
      exact ⟨[q], rfl, hsum, by simp⟩
    · exact absurd h (by simp)
  | q :: ans :: rest, len, ctx', len', hsum, h => by
    simp only [prune_tail] at h
    split at h
    · obtain ⟨rfl, rfl⟩ := Prod.mk.injEq .. ▸ Option.some.inj h
      exact ⟨q :: ans :: rest, rfl, hsum, by simp⟩
    · split at h
      · have hsum' : len - (byteLen q.content + byteLen ans.content) =
            byteLen s.content + ctxByteSum rest := by
          simp only [ctxByteSum, List.map_cons, List.sum_cons] at hsum ⊢
          omega
        obtain ⟨rest', hctx, hlen, hsub⟩ :=
          prune_tail_shape_sum s rest _ _ _ hsum' h
        exact ⟨rest', hctx, hlen, fun x hx => by
          simp only [List.mem_cons]
          exact Or.inr (Or.inr (hsub hx))⟩
      · exact absurd h (by simp)

theorem Paired.append_pair {l : List Msg} (q ans : Msg) (h : Paired l) :
    Paired (l ++ [q, ans]) := by
  induction h with
  | nil => exact Paired.cons q ans [] Paired.nil
  | cons q' ans' rest _ ih => exact Paired.cons q' ans' _ ih

theorem prune_tail_paired (s : Msg) {rest : List Msg}
    (hp : Paired rest) :
    ∀ len : Nat, len = byteLen s.content + ctxByteSum rest →
      byteLen s.content ≤ 1000 →
      ∃ rest' len', prune_tail s rest len = some (s :: rest', len') ∧
        len' = byteLen s.content + ctxByteSum rest' ∧ Paired rest' := by
  induction hp with
  | nil =>
    intro len hsum hs
    have hle : len ≤ 1000 := by simp [ctxByteSum] at hsum; omega
    exact ⟨[], len, by simp [prune_tail, hle], hsum, Paired.nil⟩
  | cons q ans rest hrest ih =>
    intro len hsum hs
    by_cases hle : len ≤ 1000
    · exact ⟨q :: ans :: rest, len, by simp [prune_tail, hle], hsum,
        Paired.cons q ans rest hrest⟩
    · have hguard : byteLen q.content + byteLen ans.content ≤ len := by
        simp only [ctxByteSum, List.map_cons, List.sum_cons] at hsum
        omega
      have hsum' : len - (byteLen q.content + byteLen ans.content) =
          byteLen s.content + ctxByteSum rest := by
        simp only [ctxByteSum, List.map_cons, List.sum_cons] at hsum ⊢
        omega
      obtain ⟨rest', len', heq, hlen, hp'⟩ := ih _ hsum' hs
      exact ⟨rest', len', by simp [prune_tail, hle, hguard, heq], hlen, hp'⟩

theorem flush_ok {w B : Nat} {cur : List Char} (h : CurOK w B cur) :
    byteLen (trim cur) ≤ max (w - 12) B := by
  rcases h with rfl | ⟨t, rfl, ht⟩
  · simp [trim, byteLen]
  · rw [trim_append_space]
    exact le_trans (byteLen_trim_le t) ht

theorem wrap_fold (w B : Nat) :
    ∀ (ws : List (List Char)) (lines : List (List Char)) (cur : List Char),
      (∀ x ∈ ws, byteLen x ≤ B) →
      (∀ l ∈ lines, byteLen l ≤ max (w - 12) B) →
      CurOK w B cur →
      (∀ l ∈ (ws.foldl (wrapStep w) (lines, cur)).1,
        byteLen l ≤ max (w - 12) B) ∧
      CurOK w B (ws.foldl (wrapStep w) (lines, cur)).2 := by
  intro ws
  induction ws with
  | nil => intro lines cur _ h1 h2; exact ⟨h1, h2⟩
  | cons x xs ih =>
    intro lines cur hws h1 h2
    rw [List.foldl_cons]
    have hx : byteLen x ≤ B := hws x (List.mem_cons_self _ _)
    have hws' : ∀ y ∈ xs, byteLen y ≤ B := fun y hy =>
      hws y (List.mem_cons_of_mem _ hy)
    simp only [wrapStep]
    split
    · apply ih _ _ hws'
      · intro l hl
        rcases List.mem_append.mp hl with h | h
        · exact h1 l h
        · rcases List.mem_singleton.mp h with rfl
          exact flush_ok h2
      · exact Or.inr ⟨x, rfl, le_trans hx (le_max_right _ _)⟩
    · rename_i hnot
      apply ih _ _ hws' h1
      refine Or.inr ⟨cur ++ x, by rw [List.append_assoc], ?_⟩
      rw [byteLen_append]
      have hfit : byteLen cur + byteLen x + 12 ≤ w := by omega
      exact le_trans (Nat.le_sub_of_add_le hfit) (le_max_left _ _)

theorem move_cursor_right_cursor (a : App) :
    (a.move_cursor_right).character_index ≤ (a.move_cursor_right).input.length := by
  simp only [App.move_cursor_right, App.clamp_cursor]
  exact min_le_right _ _

theorem move_cursor_left_cursor (a : App) :
    (a.move_cursor_left).character_index ≤ (a.move_cursor_left).input.length := by
  simp only [App.move_cursor_left, App.clamp_cursor]
  exact min_le_right _ _

theorem enter_char_cursor (a : App) (c : Char) :
    (a.enter_char c).character_index ≤ (a.enter_char c).input.length :=
  move_cursor_right_cursor _

theorem delete_char_cursor {a : App} (h : a.character_index ≤ a.input.length) :
    (a.delete_char).character_index ≤ (a.delete_char).input.length := by
  unfold App.delete_char
  split
  · exact move_cursor_left_cursor _
  · exact h

theorem delete_char_context (a : App) : (a.delete_char).context = a.context := by
  unfold App.delete_char
  split <;> rfl

theorem delete_char_context_len (a : App) :
    (a.delete_char).context_len = a.context_len := by
  unfold App.delete_char
  split <;> rfl

theorem prune_and_clear_inv {b a' : App} (rest : List Msg)
    (hsum : b.context_len = ctxByteSum b.context)
    (hctx : b.context = ⟨"system".data, SYSTEM_PROMPT⟩ :: rest)
    (hroles : ∀ m ∈ rest, m.role ≠ "system".data)
    (h : b.prune_and_clear = some a') : Inv a' := by
  unfold App.prune_and_clear at h
  rw [hctx] at h
  simp only [enforce_budget] at h
  rcases heq : prune_tail ⟨"system".data, SYSTEM_PROMPT⟩ rest b.context_len with
    - | ⟨ctx', len'⟩
  · rw [heq] at h; exact absurd h (by simp)
  · rw [heq] at h
    simp only [Option.some.injEq] at h
    have hsum' : b.context_len =
        byteLen (Msg.mk "system".data SYSTEM_PROMPT).content + ctxByteSum rest := by
      rw [hsum, hctx, ctxByteSum_cons]
    obtain ⟨rest', hctx', hlen', hsub⟩ :=
      prune_tail_shape_sum _ rest _ _ _ hsum' heq
    subst h
    refine ⟨by simp, ?_, rest', ?_, fun m hm => hroles m (hsub hm)⟩
    · simp only [hctx', hlen', ctxByteSum_cons]
    · simpa using hctx'

theorem submit_inv {a a' : App} (hinv : Inv a) (r : EngineReply)
    (h : a.submit_message r = some a') : Inv a' := by
  obtain ⟨hcur, hsum, rest, hctx, hroles⟩ := hinv
  cases r with
  | SendFailure => exact absurd h (by simp [App.submit_message])
  | ChannelClosed => exact absurd h (by simp [App.submit_message])
  | ErrResult => exact absurd h (by simp [App.submit_message])
  | OtherOk =>
    simp only [App.submit_message] at h
    refine prune_and_clear_inv (rest ++ [⟨"user".data, a.input⟩]) ?_ ?_ ?_ h
    · simp only [hsum, ctxByteSum_append, ctxByteSum_cons, ctxByteSum]
      simp
    · simp [hctx]
    · intro m hm
      rcases List.mem_append.mp hm with h' | h'
      · exact hroles m h'
      · rcases List.mem_singleton.mp h' with rfl
        exact (by decide : ("user".data : List Char) ≠ "system".data)
  | Done content =>
    cases content with
    | none => exact absurd h (by simp [App.submit_message])
    | some s =>
      simp only [App.submit_message] at h
      refine prune_and_clear_inv
        (rest ++ [⟨"user".data, a.input⟩,
                  ⟨"assistant".data, s.filter is_alphanumeric⟩]) ?_ ?_ ?_ h
      · simp only [hsum, ctxByteSum_append, ctxByteSum_cons, ctxByteSum]
        simp
        ring
      · simp [hctx]
      · intro m hm
        rcases List.mem_append.mp hm with h' | h'
        · exact hroles m h'
        · rcases List.mem_cons.mp h' with rfl | h''
          · exact (by decide : ("user".data : List Char) ≠ "system".data)
          · rcases List.mem_singleton.mp h'' with rfl
            exact (by decide : ("assistant".data : List Char) ≠ "system".data)

theorem inv_set_mode {a : App} (m : InputMode) (h : Inv a) :
    Inv { a with input_mode := m } := by
  obtain ⟨h1, h2, rest, h3, h4⟩ := h
  exact ⟨h1, h2, rest, h3, h4⟩

theorem reachable_inv {a : App} (h : Reachable a) : Inv a := by
  unfold Reachable at h
  induction h with
  | refl =>
    refine ⟨by simp [App.new], ?_, [], rfl, by simp⟩
    simp [App.new, ctxByteSum]
  | tail _ hbc ih =>
    obtain ⟨hcur, hsum, rest, hctx, hroles⟩ := ih
    cases hbc with
    | press_e hm => exact ⟨hcur, hsum, rest, hctx, hroles⟩
    | press_enter hm => exact ⟨hcur, hsum, rest, hctx, hroles⟩
    | press_esc hm => exact ⟨hcur, hsum, rest, hctx, hroles⟩
    | press_char c hm =>
      exact ⟨enter_char_cursor _ c, hsum, rest, hctx, hroles⟩
    | press_backspace hm =>
      refine ⟨delete_char_cursor hcur, ?_, rest, ?_, hroles⟩
      · rw [delete_char_context_len, delete_char_context]; exact hsum
      · rw [delete_char_context]; exact hctx
    | press_left hm =>
      exact ⟨move_cursor_left_cursor _, hsum, rest, hctx, hroles⟩
    | press_right hm =>
      exact ⟨move_cursor_right_cursor _, hsum, rest, hctx, hroles⟩
    | generate a'' r hm hR hsub =>
      exact inv_set_mode _ (submit_inv ⟨hcur, hsum, rest, hctx, hroles⟩ r hsub)

theorem submit_done {a : App} (hd : DInv a) (s : List Char) :
    ∃ a', a.submit_message (EngineReply.Done (some s)) = some a' ∧ DInv a' := by
  obtain ⟨hsum, rest, hctx, hp⟩ := hd
  have hp2 : Paired (rest ++ [⟨"user".data, a.input⟩,
      ⟨"assistant".data, s.filter is_alphanumeric⟩]) :=
    hp.append_pair _ _
  have hsum2 : a.context_len + byteLen a.input + byteLen (s.filter is_alphanumeric) =
      byteLen (Msg.mk "system".data SYSTEM_PROMPT).content +
        ctxByteSum (rest ++ [⟨"user".data, a.input⟩,
          ⟨"assistant".data, s.filter is_alphanumeric⟩]) := by
    rw [hsum, hctx, ctxByteSum_cons, ctxByteSum_append]
    simp [ctxByteSum]
    ring
  have hsp : byteLen (Msg.mk "system".data SYSTEM_PROMPT).content ≤ 1000 := by
    show byteLen SYSTEM_PROMPT ≤ 1000
    rw [byteLen_SYSTEM_PROMPT]
    omega
  obtain ⟨rest', len', heq, hlen, hp'⟩ := prune_tail_paired _ hp2 _ hsum2 hsp
  have hctx2 : (a.context ++ [⟨"user".data, a.input⟩]) ++
      [⟨"assistant".data, s.filter is_alphanumeric⟩] =
      Msg.mk "system".data SYSTEM_PROMPT ::
        (rest ++ [⟨"user".data, a.input⟩,
          ⟨"assistant".data, s.filter is_alphanumeric⟩]) := by
    rw [hctx]
    simp
  simp only [App.submit_message, App.prune_and_clear]
  rw [hctx2]
  simp only [enforce_budget]
  rw [heq]
  refine ⟨_, rfl, ?_, rest', rfl, hp'⟩
  rw [ctxByteSum_cons]
  exact hlen

theorem dinv_set_mode {a : App} (m : InputMode) (h : DInv a) :
    DInv { a with input_mode := m } := by
  obtain ⟨h1, rest, h2, h3⟩ := h
  exact ⟨h1, rest, h2, h3⟩

theorem done_reachable_inv {a : App} (h : DoneReachable a) : DInv a := by
  unfold DoneReachable at h
  induction h with
  | refl =>
    refine ⟨?_, [], rfl, Paired.nil⟩
    simp [App.new, ctxByteSum]
  | tail _ hbc ih =>
    obtain ⟨hsum, rest, hctx, hp⟩ := ih
    cases hbc with
    | press_e hm => exact ⟨hsum, rest, hctx, hp⟩
    | press_enter hm => exact ⟨hsum, rest, hctx, hp⟩
    | press_esc hm => exact ⟨hsum, rest, hctx, hp⟩
    | press_char c hm => exact ⟨hsum, rest, hctx, hp⟩
    | press_backspace hm =>
      refine ⟨?_, rest, ?_, hp⟩
      · rw [delete_char_context_len, delete_char_context]; exact hsum
      · rw [delete_char_context]; exact hctx
    | press_left hm => exact ⟨hsum, rest, hctx, hp⟩
    | press_right hm => exact ⟨hsum, rest, hctx, hp⟩
    | generate a'' r hm hR hsub =>
      obtain ⟨t, rfl⟩ := hR
      obtain ⟨a3, heq, hd⟩ := submit_done ⟨hsum, rest, hctx, hp⟩ t
      rw [heq] at hsub
      obtain rfl := Option.some.inj hsub
      exact dinv_set_mode _ hd

theorem reachable_typed (R : EngineReply → Prop) (l : List Char) :
    Relation.ReflTransGen (Step R) App.new (typedState l) := by
  induction l using List.reverseRecOn with
  | nil => exact Relation.ReflTransGen.refl
  | append_singleton as c ih =>
    refine Relation.ReflTransGen.tail ih ?_
    have harr : (typedState as).enter_char c = typedState (as ++ [c]) := by
      simp [typedState, App.enter_char, App.move_cursor_right, App.clamp_cursor]
    have hstep := Step.press_char (R := R) (typedState as) c rfl
    rwa [harr] at hstep

theorem reachable_generating (R : EngineReply → Prop) (l : List Char) :
    Relation.ReflTransGen (Step R) App.new (generatingState l) :=
  Relation.ReflTransGen.tail (reachable_typed R l)
    (Step.press_enter (typedState l) rfl)

/-- Claim C1, counterexample: with the context holding exactly the system
message plus the single most recent exchange and `running_length = 1566 >
1000`, the pruning loop does NOT leave that exchange in place — it removes
it and terminates with only the system message and the budget satisfied. -/
theorem enforce_budget_removes_most_recent_exchange :
    1566 > 1000 ∧
    enforce_budget
      [⟨"system".data, SYSTEM_PROMPT⟩,
       ⟨"user".data, List.replicate 600 'q'⟩,
       ⟨"assistant".data, List.replicate 600 'r'⟩] 1566 =
      some ([⟨"system".data, SYSTEM_PROMPT⟩], 366) :=
  ⟨by decide, by decide⟩

/-- Claim C1, amended: the pruning loop keeps removing exchanges — including
the most recent one — while `running_length` exceeds 1000; whenever it
terminates normally (without panicking) the resulting length is within the
budget, so it never stops early to preserve the most recent exchange. -/
theorem enforce_budget_stops_only_within_budget
    (ctx : List Msg) (len : Nat) (ctx' : List Msg) (len' : Nat)
    (h : enforce_budget ctx len = some (ctx', len')) : len' ≤ 1000 := by
  cases ctx with
  | nil =>
    simp only [enforce_budget] at h
    split at h
    · obtain ⟨-, rfl⟩ := Prod.mk.injEq .. ▸ Option.some.inj h; assumption
    · exact absurd h (by simp)
  | cons s rest => exact prune_tail_le_budget s rest _ _ _ h

/-- Witness for `enforce_budget_stops_only_within_budget` at a concrete
pruning run. -/
theorem enforce_budget_stops_only_within_budget_witness :
    enforce_budget [⟨"system".data, SYSTEM_PROMPT⟩] 366 =
      some ([⟨"system".data, SYSTEM_PROMPT⟩], 366) ∧ (366 : Nat) ≤ 1000 :=
  ⟨by decide,
   enforce_budget_stops_only_within_budget [⟨"system".data, SYSTEM_PROMPT⟩]
     366 [⟨"system".data, SYSTEM_PROMPT⟩] 366 (by decide)⟩

/-- Claim C2, counterexample: a successful engine result of a variant other
than `Done` is not fatal — `submit_message` falls through the `if let`,
appends nothing for the assistant, and the cycle continues (the input is
cleared and pruning runs), here from the reachable state with buffer
`"Hi"`. -/
theorem submit_other_continues :
    (generatingState "Hi".data).submit_message EngineReply.OtherOk =
      some (App.mk [] 0 InputMode.Generating [(Who.Me, "Hi".data)]
        [⟨"system".data, SYSTEM_PROMPT⟩, ⟨"user".data, "Hi".data⟩] 368) := by
  decide

/-- Claim C2, amended: a send failure, a closed reply channel, an error
result, and a completed result with absent message content are each fatal to
the process; a successful result variant other than `Done`, however, is
silently skipped — no assistant message is appended and the cycle
continues with only the user message added to the transcript. -/
theorem submit_failure_outcomes (a : App) :
    a.submit_message EngineReply.SendFailure = none ∧
    a.submit_message EngineReply.ChannelClosed = none ∧
    a.submit_message EngineReply.ErrResult = none ∧
    a.submit_message (EngineReply.Done none) = none ∧
    ∀ a', a.submit_message EngineReply.OtherOk = some a' →
      a'.messages = a.messages ++ [(Who.Me, a.input)] := by
  refine ⟨rfl, rfl, rfl, rfl, ?_⟩
  intro a' h
  simp only [App.submit_message, App.prune_and_clear] at h
  rcases heq : enforce_budget (a.context ++ [⟨"user".data, a.input⟩])
      (a.context_len + byteLen a.input) with - | ⟨ctx2, len2⟩
  · rw [heq] at h
    exact absurd h (by simp)
  · rw [heq] at h
    obtain rfl := Option.some.inj h
    rfl

/-- Witness for `submit_failure_outcomes` at the startup state. -/
theorem submit_failure_outcomes_witness :
    App.new.submit_message EngineReply.SendFailure = none ∧
    (App.mk [] 0 InputMode.Editing [(Who.Me, [])]
        [⟨"system".data, SYSTEM_PROMPT⟩, ⟨"user".data, []⟩] 366).messages =
      App.new.messages ++ [(Who.Me, App.new.input)] := by
  have h := submit_failure_outcomes App.new
  exact ⟨h.1, h.2.2.2.2 _ (by decide)⟩

/-- Claim C3, counterexample: `running_length` is not the sum of the
character counts of the held contents — already at startup it is 366 (the
byte length of the system prompt, whose em dash takes three bytes) while
the character-count sum is 364. -/
theorem context_len_counts_bytes_not_chars :
    Reachable App.new ∧ App.new.context_len ≠ ctxCharSum App.new.context :=
  ⟨Relation.ReflTransGen.refl, by decide⟩

/-- Claim C3, amended: in every reachable state `running_length` equals the
sum of the UTF-8 byte lengths (Rust `String::len`, not character counts) of
the stored contents, kept incrementally in sync by every append and every
pruning removal. -/
theorem context_len_eq_byte_sum (a : App) (h : Reachable a) :
    a.context_len = ctxByteSum a.context :=
  (reachable_inv h).2.1

/-- Witness for `context_len_eq_byte_sum` at the startup state. -/
theorem context_len_eq_byte_sum_witness :
    Reachable App.new ∧ App.new.context_len = ctxByteSum App.new.context :=
  ⟨Relation.ReflTransGen.refl,
   context_len_eq_byte_sum App.new Relation.ReflTransGen.refl⟩

/-- Claim C4, counterexample: the mode at startup is not the display-only
`Normal` mode. -/
theorem initial_mode_not_normal : App.new.input_mode ≠ InputMode.Normal := by
  decide

/-- Claim C4, amended: the initial mode at startup, before any key event is
processed, is `Editing`. -/
theorem initial_mode_is_editing : App.new.input_mode = InputMode.Editing := rfl

/-- Claim C5, counterexample: a single whitespace-delimited word longer than
`max_width - 12` is emitted as a line exceeding that bound —
`wrap_text "abcdefghij" 20` contains the ten-character line `abcdefghij`,
which exceeds `20 - 12 = 8`. -/
theorem wrap_text_long_word_exceeds_bound :
    "abcdefghij".data ∈ wrap_text "abcdefghij".data 20 ∧
    byteLen "abcdefghij".data > 20 - 12 :=
  ⟨by decide, by decide⟩

/-- Claim C5, amended: every line returned by `wrap_text text max_width` has
length at most the larger of `max_width - 12` and the length of the longest
whitespace-delimited word of the text; the `max_width - 12` bound alone
holds except for lines made of one over-long word. -/
theorem wrap_text_line_bound (text : List Char) (w : Nat) (line : List Char)
    (h : line ∈ wrap_text text w) :
    byteLen line ≤ max (w - 12) (maxWordLen text) := by
  have hws : ∀ x ∈ split_whitespace text, byteLen x ≤ maxWordLen text := by
    intro x hx
    exact mem_le_foldr_max _ _ (List.mem_map_of_mem byteLen hx)
  have hfold := wrap_fold w (maxWordLen text) (split_whitespace text) [] []
    hws (by simp) (Or.inl rfl)
  simp only [wrap_text] at h
  split at h
  · rcases List.mem_append.mp h with h' | h'
    · exact hfold.1 _ h'
    · rcases List.mem_singleton.mp h' with rfl
      exact flush_ok hfold.2
  · exact hfold.1 _ h

/-- Witness for `wrap_text_line_bound` at a concrete wrap. -/
theorem wrap_text_line_bound_witness :
    "abc".data ∈ wrap_text "abc".data 100 ∧
    byteLen "abc".data ≤ max (100 - 12) (maxWordLen "abc".data) :=
  ⟨by decide, wrap_text_line_bound "abc".data 100 "abc".data (by decide)⟩

/-- Claim C6: from the reachable state whose editor buffer is `"Hi"`, a turn
in which the engine completes with `"Hello there!"` appends exactly the two
transcript entries `(Me, "Hi")` and `(Assistant, "Hello there!")` (displayed
as `Me` and `QS`) and exactly the two context entries — the user message
`"Hi"` and the assistant message stored as the alphanumeric-filtered
`"Hellothere"`. -/
theorem full_turn_hi :
    Reachable (generatingState "Hi".data) ∧
    (generatingState "Hi".data).submit_message
        (EngineReply.Done (some "Hello there!".data)) =
      some (App.mk [] 0 InputMode.Generating
        [(Who.Me, "Hi".data), (Who.Assistant, "Hello there!".data)]
        [⟨"system".data, SYSTEM_PROMPT⟩, ⟨"user".data, "Hi".data⟩,
         ⟨"assistant".data, "Hellothere".data⟩] 378) ∧
    Who.display Who.Me = "Me".data ∧
    Who.display Who.Assistant = "QS".data :=
  ⟨reachable_generating (fun _ => True) "Hi".data, by decide, rfl, rfl⟩

/-- Claim C7: in every reachable state the context starts with the system
message carrying the configured system directive, and no other held message
ever carries the `system` role — pruning and appending never remove or
reorder it. -/
theorem system_message_invariant (a : App) (h : Reachable a) :
    a.context.head? = some ⟨"system".data, SYSTEM_PROMPT⟩ ∧
    ∀ m ∈ a.context.tail, m.role ≠ "system".data := by
  obtain ⟨-, -, rest, hctx, hroles⟩ := reachable_inv h
  rw [hctx]
  exact ⟨rfl, hroles⟩

/-- Witness for `system_message_invariant` at the startup state. -/
theorem system_message_invariant_witness :
    Reachable App.new ∧
    App.new.context.head? = some ⟨"system".data, SYSTEM_PROMPT⟩ :=
  ⟨Relation.ReflTransGen.refl,
   (system_message_invariant App.new Relation.ReflTransGen.refl).1⟩

/-- Claim C8, counterexample: inserting the five codepoints of `"héllo"`
from an empty buffer and then deleting before the cursor twice does NOT
yield the buffer `"hé"` with cursor 2 — two deletions remove only the two
final characters. -/
theorem editor_scenario_two_deletes :
    ¬ ((((((((App.new.enter_char 'h').enter_char 'é').enter_char
        'l').enter_char 'l').enter_char 'o').delete_char).delete_char).input =
          "hé".data ∧
       (((((((App.new.enter_char 'h').enter_char 'é').enter_char
        'l').enter_char 'l').enter_char 'o').delete_char).delete_char).character_index
          = 2) := by
  decide

/-- Claim C8, amended: inserting the codepoints of `"héllo"` one at a time
from an empty buffer and calling delete-before-cursor twice yields the
buffer `"hél"` with the cursor at scalar index 3, the multi-byte `é` intact
(the claimed `"hé"`/2 would require a third deletion). -/
theorem editor_scenario_result :
    (((((((App.new.enter_char 'h').enter_char 'é').enter_char
        'l').enter_char 'l').enter_char 'o').delete_char).delete_char).input =
          "hél".data ∧
    (((((((App.new.enter_char 'h').enter_char 'é').enter_char
        'l').enter_char 'l').enter_char 'o').delete_char).delete_char).character_index
          = 3 := by
  decide

/-- Claim C9: in every reachable state — hence after every editor operation
— the cursor, measured in Unicode scalar units, lies between 0 and the
number of scalars in the buffer. -/
theorem cursor_within_bounds (a : App) (h : Reachable a) :
    a.character_index ≤ a.input.length :=
  (reachable_inv h).1

/-- Witness for `cursor_within_bounds` at the startup state. -/
theorem cursor_within_bounds_witness :
    Reachable App.new ∧ App.new.character_index ≤ App.new.input.length :=
  ⟨Relation.ReflTransGen.refl,
   cursor_within_bounds App.new Relation.ReflTransGen.refl⟩

/-- Claim C10, counterexample: the pruning loop is not safe in every
reachable state — after typing 1001 characters and submitting, a successful
non-`Done` engine reply is silently skipped, the loop is entered with
`context_len > 1000` but only two messages held (system plus the unpaired
user message), and the second `remove(1)` is out of bounds (a panic,
modelled as `none`). -/
theorem prune_panics_after_skipped_reply :
    Reachable (generatingState (List.replicate 1001 'a')) ∧
    (generatingState (List.replicate 1001 'a')).submit_message
        EngineReply.OtherOk = none ∧
    (generatingState (List.replicate 1001 'a')).context_len +
        byteLen (List.replicate 1001 'a') > 1000 ∧
    ((generatingState (List.replicate 1001 'a')).context ++
        [(⟨"user".data, List.replicate 1001 'a'⟩ : Msg)]).length = 2 :=
  ⟨reachable_generating (fun _ => True) (List.replicate 1001 'a'),
   by decide, by decide, by decide⟩

/-- Claim C10, amended: in every state reachable when each engine reply is a
completed `Done` result with content, the pruning loop inside
`submit_message` is safe — `context_len` tracks the exact byte sum and the
tail holds complete exchanges, so whenever the budget is exceeded at least
one full exchange follows the (under-budget) system message, both
`remove(1)` calls stay in bounds, and the subtraction never underflows;
`submit_message` therefore never panics in the loop. -/
theorem prune_safe_under_done_replies (a : App) (h : DoneReachable a)
    (s : List Char) :
    (a.submit_message (EngineReply.Done (some s))).isSome = true := by
  obtain ⟨a', heq, -⟩ := submit_done (done_reachable_inv h) s
  rw [heq]
  rfl

/-- Witness for `prune_safe_under_done_replies` at the startup state. -/
theorem prune_safe_under_done_replies_witness :
    DoneReachable App.new ∧
    (App.new.submit_message (EngineReply.Done (some "Hi".data))).isSome =
      true :=
  ⟨Relation.ReflTransGen.refl,
   prune_safe_under_done_replies App.new Relation.ReflTransGen.refl "Hi".data⟩

end TermiTalk
